import Mathlib

/-!
Verification of the WIF recovery tool (src/main.py) against its
natural-language specification.

The program enumerates candidate WIF strings from a template with
per-position candidate sets, filters them with a cheap character-class
check, validates survivors with Base58Check decoding, and checkpoints
progress so an interrupted scan can resume.

This file shallowly embeds the source: machine integers are `Nat` with
explicit `% 2 ^ 32` where overflow matters, byte strings are `List Nat`,
fallible code returns `Except`, and the scan loop is a fold over the
candidate list with explicit state.  The Base58Check decoder called by the
source lives in the third-party `base58` library; it is embedded here from
the scheme the spec describes (base-58 positional decoding plus a 4-byte
double-SHA-256 checksum), with SHA-256 implemented in full.
-/

namespace WifRecovery

/-- Base58 character table (src/main.py line 15). -/
def ALPHABET : String := "123456789ABCDEFGHJKLMNPQRSTUVWXYZabcdefghijkmnopqrstuvwxyz"

/-! ### Positional number systems

Big-endian digit expansions in an arbitrary base, used at base 58 for the
text side and base 256 for the byte side of Base58.  The expansion is
driven by a fuel argument (structural recursion) so that it evaluates by
kernel reduction; `natDigits` instantiates the fuel with the number
itself, which is always sufficient. -/

/-- Fuel-driven big-endian base-`b` digit expansion of `n`. -/
def digitsGo (b : Nat) : Nat → Nat → List Nat
  | 0, _ => []
  | fuel + 1, n => if n = 0 then [] else digitsGo b fuel (n / b) ++ [n % b]

/-- Minimal big-endian base-`b` digits of `n` (empty for 0, no leading zero
digit).  At base 256 this is Python `int.to_bytes` with minimal length; at
base 58 it is the divmod loop of `b58encode_int`. -/
def natDigits (b n : Nat) : List Nat := digitsGo b n n

/-- Value of a big-endian base-`b` digit string: the accumulation loop
`decimal = decimal * base + digit` of `b58decode_int`, and
`int.from_bytes(_, "big")` at base 256. -/
def digitsVal (b : Nat) (ds : List Nat) : Nat := ds.foldl (fun acc d => acc * b + d) 0

/-! ### SHA-256

Full SHA-256 over byte lists (each byte a `Nat < 256`), as used by the
`base58` library for the Base58Check checksum.  Words are `Nat` reduced
modulo `2 ^ 32` after every arithmetic step. -/

/-- `2 ^ 32`, the word modulus of SHA-256. -/
def shaMod : Nat := 4294967296

/-- Right-rotation of a 32-bit word. -/
def rotr (n x : Nat) : Nat := ((x >>> n) ||| (x <<< (32 - n))) % shaMod

/-- The 64 SHA-256 round constants. -/
def shaK : List Nat :=
  [1116352408, 1899447441, 3049323471, 3921009573, 961987163, 1508970993,
   2453635748, 2870763221, 3624381080, 310598401, 607225278, 1426881987,
   1925078388, 2162078206, 2614888103, 3248222580, 3835390401, 4022224774,
   264347078, 604807628, 770255983, 1249150122, 1555081692, 1996064986,
   2554220882, 2821834349, 2952996808, 3210313671, 3336571891, 3584528711,
   113926993, 338241895, 666307205, 773529912, 1294757372, 1396182291,
   1695183700, 1986661051, 2177026350, 2456956037, 2730485921, 2820302411,
   3259730800, 3345764771, 3516065817, 3600352804, 4094571909, 275423344,
   430227734, 506948616, 659060556, 883997877, 958139571, 1322822218,
   1537002063, 1747873779, 1955562222, 2024104815, 2227730452, 2361852424,
   2428436474, 2756734187, 3204031479, 3329325298]

/-- The initial SHA-256 hash state. -/
def shaH0 : List Nat :=
  [1779033703, 3144134277, 1013904242, 2773480762,
   1359893119, 2600822924, 528734635, 1541459225]

/-- Group a byte list into big-endian 32-bit words, four bytes at a time. -/
def bytesToWords : List Nat → List Nat
  | b0 :: b1 :: b2 :: b3 :: rest => (((b0 * 256 + b1) * 256 + b2) * 256 + b3) :: bytesToWords rest
  | _ => []

/-- Big-endian bytes of one 32-bit word. -/
def wordToBytes (w : Nat) : List Nat :=
  [w / 16777216 % 256, w / 65536 % 256, w / 256 % 256, w % 256]

/-- Big-endian bytes of a word list. -/
def wordsToBytes (ws : List Nat) : List Nat := ws.flatMap wordToBytes

/-- The 8-byte big-endian bit-length trailer of the SHA-256 padding. -/
def shaLenBytes (l : Nat) : List Nat :=
  let n := 8 * l
  [n / 2 ^ 56 % 256, n / 2 ^ 48 % 256, n / 2 ^ 40 % 256, n / 2 ^ 32 % 256,
   n / 2 ^ 24 % 256, n / 2 ^ 16 % 256, n / 2 ^ 8 % 256, n % 256]

/-- SHA-256 padding: a 0x80 byte, zeros to 56 mod 64, and the bit length. -/
def shaPad (msg : List Nat) : List Nat :=
  msg ++ [0x80] ++ List.replicate ((120 - (msg.length + 1) % 64) % 64) 0 ++ shaLenBytes msg.length

/-- Split a byte list into 64-byte blocks (fuel-driven for kernel reduction). -/
def chunks64 : Nat → List Nat → List (List Nat)
  | _, [] => []
  | 0, _ => []
  | fuel + 1, l => l.take 64 :: chunks64 fuel (l.drop 64)

/-- One step of the SHA-256 message-schedule extension. -/
def scheduleStep (w : List Nat) : List Nat :=
  let n := w.length
  let w15 := w.getD (n - 15) 0
  let w2 := w.getD (n - 2) 0
  let w16 := w.getD (n - 16) 0
  let w7 := w.getD (n - 7) 0
  let s0 := (rotr 7 w15) ^^^ (rotr 18 w15) ^^^ (w15 >>> 3)
  let s1 := (rotr 17 w2) ^^^ (rotr 19 w2) ^^^ (w2 >>> 10)
  w ++ [(w16 + s0 + w7 + s1) % shaMod]

/-- Extend the 16 words of a block to the 64 words of the schedule. -/
def schedule (w : List Nat) : List Nat :=
  (List.range 48).foldl (fun acc _ => scheduleStep acc) w

/-- One SHA-256 compression round on the 8-word working state. -/
def compressRound (st : List Nat) (kw : Nat × Nat) : List Nat :=
  match st with
  | [a, b, c, d, e, f, g, h] =>
    let s1 := (rotr 6 e) ^^^ (rotr 11 e) ^^^ (rotr 25 e)
    let ch := (e &&& f) ^^^ ((e ^^^ 4294967295) &&& g)
    let t1 := (h + s1 + ch + kw.1 + kw.2) % shaMod
    let s0 := (rotr 2 a) ^^^ (rotr 13 a) ^^^ (rotr 22 a)
    let maj := (a &&& b) ^^^ (a &&& c) ^^^ (b &&& c)
    let t2 := (s0 + maj) % shaMod
    [(t1 + t2) % shaMod, a, b, c, (d + t1) % shaMod, e, f, g]
  | other => other

/-- Compress one 64-byte block into the hash state. -/
def compressBlock (h : List Nat) (block : List Nat) : List Nat :=
  let w := schedule (bytesToWords block)
  let st := (shaK.zip w).foldl compressRound h
  (h.zip st).map (fun p => (p.1 + p.2) % shaMod)

/-- SHA-256 of a byte list, as a 32-byte list. -/
def sha256 (msg : List Nat) : List Nat :=
  wordsToBytes ((chunks64 (shaPad msg).length (shaPad msg)).foldl compressBlock shaH0)

/-! ### Base58 and Base58Check

The decoder mirrors the `base58` library the source imports:
`b58decode` strips leading alphabet-zero characters, accumulates the
remaining digits, and renders the value back to bytes with one leading
zero byte per stripped character; `b58decode_check` splits off the last
four bytes and compares them with the double-SHA-256 checksum of the
rest.  A character outside the 58-symbol table fails the digit lookup. -/

/-- Position of a character in a character table (the decode map of the
base58 library); `none` for characters outside the table. -/
def b58Index : List Char → Char → Option Nat
  | [], _ => none
  | a :: as, c => if a = c then some 0 else (b58Index as c).map (· + 1)

/-- The character of the Base58 alphabet at a digit position. -/
def b58Digit (d : Nat) : Char := ALPHABET.data.getD d '1'

/-- The two rejection causes of the base58 library decoder. -/
inductive DecodeError where
  | invalidChar
  | checksumMismatch
deriving DecidableEq, Repr

/-- `b58decode` of the base58 library: strip leading `'1'` characters,
read the rest as a base-58 number, and emit one zero byte per stripped
character followed by the minimal big-endian bytes of the number. -/
def b58decode (v : List Char) : Except DecodeError (List Nat) :=
  let stripped := v.dropWhile (· = '1')
  match stripped.mapM (b58Index ALPHABET.data) with
  | none => .error .invalidChar
  | some ds =>
    .ok (List.replicate (v.length - stripped.length) 0 ++ natDigits 256 (digitsVal 58 ds))

/-- First four bytes of the double SHA-256 of a byte list: the
Base58Check checksum. -/
def sha4 (bs : List Nat) : List Nat := (sha256 (sha256 bs)).take 4

/-- `b58decode_check` of the base58 library: decode, split off the 4-byte
trailing checksum, and compare it with `sha4` of the remainder. -/
def b58decode_check (v : List Char) : Except DecodeError (List Nat) :=
  match b58decode v with
  | .error e => .error e
  | .ok dec =>
    let result := dec.take (dec.length - 4)
    let check := dec.drop (dec.length - 4)
    if check = sha4 result then .ok result else .error .checksumMismatch

/-- The rejection causes of `wif_to_privkey`: a decoder failure, a wrong
leading version byte (the source raises ValueError at line 31; an empty
decoded payload, which would raise IndexError at line 30, is folded into
this case), or a payload length that is neither 32 nor 33-with-0x01
(ValueError at line 38). -/
inductive WifError where
  | decodeFailure (e : DecodeError)
  | notMainnet
  | badLength
deriving DecidableEq, Repr

/-- src/main.py lines 28–38: Base58Check-decode a candidate, require the
0x80 mainnet version byte, and accept a 32-byte payload (uncompressed) or
a 33-byte payload whose last byte is 0x01 (compressed). -/
def wif_to_privkey (wif : String) : Except WifError (List Nat × Bool) :=
  match b58decode_check wif.data with
  | .error e => .error (.decodeFailure e)
  | .ok raw =>
    if raw.head? = some 0x80 then
      let payload := raw.drop 1
      if payload.length = 32 then .ok (payload, false)
      else if payload.length = 33 ∧ payload.getLast? = some 1 then .ok (payload.dropLast, true)
      else .error .badLength
    else .error .notMainnet

/-- Modelled from the spec: the re-encoding half of the scheme
(`b58encode` of the base58 library), absent from the source, which only
decodes; needed to state the round-trip law.  One `'1'` character per
leading zero byte, then the base-58 digits of the remaining value. -/
def b58encode (bs : List Nat) : List Char :=
  let stripped := bs.dropWhile (· = 0)
  List.replicate (bs.length - stripped.length) '1'
    ++ (natDigits 58 (digitsVal 256 stripped)).map b58Digit

/-- Modelled from the spec: `b58encode_check`, appending the 4-byte
double-SHA-256 checksum before encoding. -/
def b58encode_check (bs : List Nat) : List Char := b58encode (bs ++ sha4 bs)

/-- Re-encoding of an accepted payload and format flag with the same
scheme the decoder expects: version byte 0x80, the payload, and the 0x01
marker exactly when the flag is set. -/
def encodeWif (p : List Nat) (f : Bool) : List Char :=
  b58encode_check (0x80 :: (p ++ (if f then [1] else [])))

/-! ### Candidate enumeration

src/main.py lines 41–63.  `generate_candidates_safe` builds, for every
template index, the list of allowed characters — the configured candidate
characters that belong to `ALPHABET` for constrained positions, the
literal template character for the rest — and yields every combination by
recursing over positions with a shared write-once-per-path buffer. -/

/-- The per-position choice lists (src/main.py lines 45–51).  The
candidate map of the source is a dict from 0-based index to a string of
candidate characters; it is embedded as a function to `Option`. -/
def buildPositions (template : List Char) (m : Nat → Option (List Char)) :
    List (Nat × List Char) :=
  (List.range template.length).map fun idx =>
    match m idx with
    | some cs => (idx, cs.filter fun c => ALPHABET.data.contains c)
    | none => (idx, [template.getD idx ' '])

/-- The recursive generator (src/main.py lines 53–60).  The Python
`current` buffer is a single mutable list shared across the recursion; it
is threaded through explicitly, each call returning the produced strings
together with the buffer as the recursion leaves it.  A slot left `none`
would make the Python `join` raise; at the top level every slot is
assigned on every path, so the `' '` default never reaches a produced
string. -/
def generate_combinations :
    List (Nat × List Char) → List (Option Char) → List String × List (Option Char)
  | [], current => ([String.mk (current.map fun o => o.getD ' ')], current)
  | (idx, choices) :: rest, current =>
    choices.foldl
      (fun acc choice =>
        let step := generate_combinations rest (acc.2.set idx (some choice))
        (acc.1 ++ step.1, step.2))
      (([] : List String), current)

/-- src/main.py lines 41–63: the full candidate sequence of a template
and candidate map, in generation order. -/
def generate_candidates_safe (template : List Char) (m : Nat → Option (List Char)) :
    List String :=
  (generate_combinations (buildPositions template m)
    (List.replicate template.length none)).1

/-- src/main.py lines 100–105: the product, over constrained positions,
of the number of configured candidate characters that belong to
`ALPHABET`. -/
def calculate_total_combinations (template : List Char) (m : Nat → Option (List Char)) :
    Nat :=
  (List.range template.length).foldl
    (fun total idx =>
      match m idx with
      | some cs => total * (cs.filter fun c => ALPHABET.data.contains c).length
      | none => total)
    1

/-! ### The scan loop

src/main.py lines 153–196.  The loop enumerates all candidates from index
0, skips indices below the resume cursor, advances the cursor, applies
the structural filter, and validates survivors with `wif_to_privkey`,
appending successes to the found list.  The state carries, besides the
two source variables `tested` and `found`, two ghost lists instrumenting
the loop for the theorems: the candidates whose loop body ran past the
resume check (`processed`) and the candidates on which `wif_to_privkey`
was invoked (`validated`). -/

/-- src/main.py lines 161–168: the structural filter.  The slice
`wif[1:12]` must contain at least one digit, one lowercase letter and one
uppercase letter.  Character classes are the ASCII ranges; the Python
predicates agree with them on the ASCII strings the program handles. -/
def structuralFilter (wif : String) : Bool :=
  let segment := (wif.data.drop 1).take 11
  segment.any Char.isDigit && segment.any Char.isLower && segment.any Char.isUpper

/-- A found entry: the candidate, its payload bytes (rendered as hex by
the source when stored), and the compressed-format flag. -/
abbrev FoundEntry := String × List Nat × Bool

/-- The scan-loop state: the source variables `tested` (resume cursor)
and `found`, plus the two ghost instrumentation lists. -/
structure ScanState where
  tested : Nat
  found : List FoundEntry
  processed : List (Nat × String)
  validated : List (Nat × String)
deriving DecidableEq, Repr

/-- The loop body for candidate `wif` at enumeration index `i`
(src/main.py lines 156–196): skip if `i < tested`, set `tested = i + 1`,
drop candidates failing the structural filter, validate the rest, and
append successes to `found`. -/
def scanStep (st : ScanState) (i : Nat) (wif : String) : ScanState :=
  if i < st.tested then st
  else
    let st1 : ScanState :=
      { st with tested := i + 1, processed := st.processed ++ [(i, wif)] }
    if structuralFilter wif then
      let st2 : ScanState := { st1 with validated := st1.validated ++ [(i, wif)] }
      match wif_to_privkey wif with
      | .error _ => st2
      | .ok (p, c) => { st2 with found := st2.found ++ [(wif, p, c)] }
    else st1

/-- The `for i, wif in enumerate(candidate_generator)` loop, folding
`scanStep` over the candidate list with a running index. -/
def scanLoop : List String → Nat → ScanState → ScanState
  | [], _, st => st
  | w :: ws, i, st => scanLoop ws (i + 1) (scanStep st i w)

/-- The fresh-start state: cursor 0, nothing found. -/
def initState : ScanState := ⟨0, [], [], []⟩

/-- Enumeration pairs `(i, a), (i+1, a'), …` of a list, starting at a
given index: the tail of Python `enumerate` a resumed run processes. -/
def enumFrom : Nat → List String → List (Nat × String)
  | _, [] => []
  | i, w :: ws => (i, w) :: enumFrom (i + 1) ws

/-! ### The driver: resume protocol and interruption

src/main.py lines 110–206.  The persisted progress record and the resume
decision, the end-to-end run, and the state the SIGINT handler persists. -/

/-- The persisted progress record (src/main.py lines 66–72).  The JSON
file also carries a wall-clock timestamp, written but never read on
resume; it is outside this embedding. -/
structure ProgressRec where
  tested_count : Nat
  total_candidates : Nat
  found_wifs : List FoundEntry
deriving DecidableEq, Repr

/-- Modelled from the spec: the configuration-error kind the spec
prescribes for an empty candidate set or a persisted-total mismatch.  The
source defines no such error; the driver embedding returns `Except` over
this type to make explicit whether any run produces one. -/
inductive ConfigurationError where
  | emptyCandidateSet
  | totalMismatch
deriving DecidableEq, Repr

/-- The outcome of a completed scan: the recomputed total and the final
loop state. -/
structure ScanOutcome where
  total : Nat
  final : ScanState
deriving DecidableEq, Repr

/-- src/main.py lines 123–159 and the loop: recompute the total from the
template, take the cursor and found list from the progress record when
one exists and the operator chooses to resume (lines 126–137) — the
persisted `total_candidates` is never consulted — and run the loop over
all candidates from index 0. -/
def mainModel (template : List Char) (m : Nat → Option (List Char))
    (progress : Option ProgressRec) (resumeChoice : Bool) :
    Except ConfigurationError ScanOutcome :=
  let total := calculate_total_combinations template m
  let start : Nat × List FoundEntry :=
    match progress with
    | some p => if resumeChoice then (p.tested_count, p.found_wifs) else (0, [])
    | none => (0, [])
  .ok ⟨total, scanLoop (generate_candidates_safe template m) 0 ⟨start.1, start.2, [], []⟩⟩

/-- Where a SIGINT lands relative to the loop body of iteration `j`:
at the iteration boundary (before line 159 runs for iteration `j`), or
inside the body after the cursor increment of line 159 but before the
body completes (during the filter, the periodic bookkeeping, or the
`wif_to_privkey` call). -/
inductive SigPoint where
  | boundary
  | midBody
deriving DecidableEq, Repr

/-- The loop state after `j` complete iterations of a fresh run. -/
def interruptedState (cands : List String) (j : Nat) : ScanState :=
  scanLoop (cands.take j) 0 initState

/-- The value of `tested` the SIGINT handler (src/main.py lines 143–147)
persists when the signal lands at the given point of iteration `j`: the
handler saves the current value of the `tested` variable, which line 159
has already advanced to `j + 1` when the signal lands mid-body. -/
def savedTestedAt (cands : List String) (j : Nat) (pt : SigPoint) : Nat :=
  match pt with
  | .boundary => (interruptedState cands j).tested
  | .midBody =>
    if j < cands.length then j + 1 else (interruptedState cands j).tested

/-! ### Enumerator lemmas

The generator threads the shared buffer through the recursion; the
reasoning below shows the produced strings coincide with a buffer-local
recursion (`pureGen`), because every branch overwrites the slot of its
position before descending, and then establishes the counting,
well-formedness and distinctness facts on `pureGen`. -/

/-- Buffer-local reference recursion: the buffer is only passed down,
never returned. -/
def pureGen : List (Nat × List Char) → List (Option Char) → List String
  | [], current => [String.mk (current.map fun o => o.getD ' ')]
  | (idx, choices) :: rest, current =>
    choices.flatMap fun choice => pureGen rest (current.set idx (some choice))

theorem genCombs_snd_length (ps : List (Nat × List Char)) :
    ∀ cur : List (Option Char), ((generate_combinations ps cur).2).length = cur.length := by
  induction ps with
  | nil => intro cur; rfl
  | cons p rest ih =>
    obtain ⟨idx, choices⟩ := p
    intro cur
    have h : ∀ (cs : List Char) (acc : List String × List (Option Char)),
        acc.2.length = cur.length →
        ((cs.foldl (fun acc choice =>
            let step := generate_combinations rest (acc.2.set idx (some choice))
            (acc.1 ++ step.1, step.2)) acc).2).length = cur.length := by
      intro cs
      induction cs with
      | nil => intro acc hacc; simpa using hacc
      | cons c cs ihc =>
        intro acc hacc
        rw [List.foldl_cons]
        apply ihc
        simpa [ih] using hacc
    exact h choices ([], cur) rfl

theorem genCombs_snd_agree (ps : List (Nat × List Char)) :
    ∀ (cur : List (Option Char)) (j : Nat), (∀ p ∈ ps, p.1 ≠ j) →
      ((generate_combinations ps cur).2)[j]? = cur[j]? := by
  induction ps with
  | nil => intro cur j _; rfl
  | cons p rest ih =>
    obtain ⟨idx, choices⟩ := p
    intro cur j hj
    have hidx : idx ≠ j := hj (idx, choices) (List.mem_cons_self _ _)
    have hrest : ∀ p ∈ rest, p.1 ≠ j := fun p hp => hj p (List.mem_cons_of_mem _ hp)
    have h : ∀ (cs : List Char) (acc : List String × List (Option Char)),
        acc.2[j]? = cur[j]? →
        ((cs.foldl (fun acc choice =>
            let step := generate_combinations rest (acc.2.set idx (some choice))
            (acc.1 ++ step.1, step.2)) acc).2)[j]? = cur[j]? := by
      intro cs
      induction cs with
      | nil => intro acc hacc; simpa using hacc
      | cons c cs ihc =>
        intro acc hacc
        rw [List.foldl_cons]
        apply ihc
        rw [ih _ j hrest, List.getElem?_set_ne hidx, hacc]
    exact h choices ([], cur) rfl

theorem pureGen_congr (ps : List (Nat × List Char)) :
    ∀ cur cur2 : List (Option Char), cur.length = cur2.length →
      (∀ j, (∀ p ∈ ps, p.1 ≠ j) → cur[j]? = cur2[j]?) →
      pureGen ps cur = pureGen ps cur2 := by
  induction ps with
  | nil =>
    intro cur cur2 _ hagree
    have : cur = cur2 := List.ext_getElem? fun j => hagree j (by simp)
    rw [pureGen, pureGen, this]
  | cons p rest ih =>
    obtain ⟨idx, choices⟩ := p
    intro cur cur2 hlen hagree
    rw [pureGen, pureGen]
    apply List.flatMap_congr
    intro c _
    apply ih
    · simp [hlen]
    · intro j hj
      by_cases hji : idx = j
      · subst hji
        by_cases hilt : idx < cur.length
        · rw [List.getElem?_set_self hilt, List.getElem?_set_self (hlen ▸ hilt)]
        · rw [List.set_eq_of_length_le (Nat.le_of_not_lt hilt),
            List.set_eq_of_length_le (hlen ▸ Nat.le_of_not_lt hilt),
            List.getElem?_eq_none (Nat.le_of_not_lt hilt),
            List.getElem?_eq_none (hlen ▸ Nat.le_of_not_lt hilt)]
      · rw [List.getElem?_set_ne hji, List.getElem?_set_ne hji]
        apply hagree j
        intro p hp
        rcases List.mem_cons.mp hp with h1 | h2
        · rw [h1]; exact hji
        · exact hj p h2

theorem genCombs_fst_eq_pureGen (ps : List (Nat × List Char)) :
    ∀ cur : List (Option Char), (ps.map Prod.fst).Nodup →
      (generate_combinations ps cur).1 = pureGen ps cur := by
  induction ps with
  | nil => intro cur _; rfl
  | cons p rest ih =>
    obtain ⟨idx, choices⟩ := p
    intro cur hnd
    rw [List.map_cons] at hnd
    obtain ⟨hnotmem, hndrest⟩ := List.nodup_cons.mp hnd
    have hidx : ∀ p ∈ rest, p.1 ≠ idx := by
      intro p hp hc
      apply hnotmem
      rw [← hc]
      exact List.mem_map.mpr ⟨p, hp, rfl⟩
    rw [generate_combinations, pureGen]
    have h : ∀ (cs : List Char) (acc : List String × List (Option Char)),
        acc.2.length = cur.length →
        (∀ j, j ≠ idx → (∀ p ∈ rest, p.1 ≠ j) → acc.2[j]? = cur[j]?) →
        (cs.foldl (fun acc choice =>
            let step := generate_combinations rest (acc.2.set idx (some choice))
            (acc.1 ++ step.1, step.2)) acc).1
          = acc.1 ++ cs.flatMap fun c => pureGen rest (cur.set idx (some c)) := by
      intro cs
      induction cs with
      | nil => intro acc _ _; simp
      | cons c cs ihc =>
        intro acc hlen hagree
        rw [List.foldl_cons, List.flatMap_cons]
        have hg1 : (generate_combinations rest (acc.2.set idx (some c))).1
            = pureGen rest (cur.set idx (some c)) := by
          rw [ih _ hndrest]
          apply pureGen_congr
          · simp [hlen]
          · intro j hj
            by_cases hji : idx = j
            · subst hji
              by_cases hilt : idx < cur.length
              · rw [List.getElem?_set_self (by rw [hlen]; exact hilt),
                  List.getElem?_set_self hilt]
              · rw [List.set_eq_of_length_le (by rw [hlen]; exact Nat.le_of_not_lt hilt),
                  List.set_eq_of_length_le (Nat.le_of_not_lt hilt)]
                rw [List.getElem?_eq_none (by rw [hlen]; exact Nat.le_of_not_lt hilt),
                  List.getElem?_eq_none (Nat.le_of_not_lt hilt)]
            · rw [List.getElem?_set_ne hji, List.getElem?_set_ne hji]
              exact hagree j (fun hc => hji hc.symm) hj
        rw [ihc _ ?_ ?_]
        · simp only [hg1, List.append_assoc]
        · rw [genCombs_snd_length]; simp [hlen]
        · intro j hjidx hjrest
          rw [genCombs_snd_agree _ _ _ hjrest, List.getElem?_set_ne fun hc => hjidx hc.symm]
          exact hagree j hjidx hjrest
    have := h choices ([], cur) rfl (fun _ _ _ => rfl)
    simpa using this

/-- The first components of the choice-list table are exactly the
template indices, in order. -/
theorem buildPositions_map_fst (t : List Char) (m : Nat → Option (List Char)) :
    (buildPositions t m).map Prod.fst = List.range t.length := by
  rw [buildPositions, List.map_map]
  conv_rhs => rw [← List.map_id (List.range t.length)]
  apply List.map_congr_left
  intro idx _
  rcases hm : m idx with _ | cs <;> simp [Function.comp, hm]

/-- The candidate sequence coincides with the buffer-local recursion. -/
theorem generate_eq_pureGen (t : List Char) (m : Nat → Option (List Char)) :
    generate_candidates_safe t m
      = pureGen (buildPositions t m) (List.replicate t.length none) := by
  rw [generate_candidates_safe, genCombs_fst_eq_pureGen]
  rw [buildPositions_map_fst]
  exact List.nodup_range _

theorem pureGen_length (ps : List (Nat × List Char)) :
    ∀ cur : List (Option Char),
      (pureGen ps cur).length = (ps.map fun p => p.2.length).prod := by
  induction ps with
  | nil => intro cur; rfl
  | cons p rest ih =>
    obtain ⟨idx, choices⟩ := p
    intro cur
    rw [pureGen, List.length_flatMap, List.map_cons, List.prod_cons]
    have : List.map (List.length ∘ fun choice => pureGen rest (cur.set idx (some choice)))
        choices = List.map (Function.const Char ((rest.map fun p => p.2.length).prod))
          choices := by
      apply List.map_congr_left
      intro c _
      exact ih _
    rw [this, List.map_const, List.sum_replicate, smul_eq_mul]

theorem pureGen_mem_length (ps : List (Nat × List Char)) :
    ∀ (cur : List (Option Char)) (s : String), s ∈ pureGen ps cur →
      s.length = cur.length := by
  induction ps with
  | nil =>
    intro cur s hs
    rw [pureGen, List.mem_singleton] at hs
    subst hs
    simp [String.length]
  | cons p rest ih =>
    obtain ⟨idx, choices⟩ := p
    intro cur s hs
    rw [pureGen, List.mem_flatMap] at hs
    obtain ⟨c, _, hs⟩ := hs
    rw [ih _ s hs, List.length_set]

theorem pureGen_mem_getElem (ps : List (Nat × List Char)) :
    ∀ (cur : List (Option Char)) (s : String), s ∈ pureGen ps cur →
      ∀ j, (∀ p ∈ ps, p.1 ≠ j) →
        s.data[j]? = (cur.map fun o => o.getD ' ')[j]? := by
  induction ps with
  | nil =>
    intro cur s hs j _
    rw [pureGen, List.mem_singleton] at hs
    subst hs
    rfl
  | cons p rest ih =>
    obtain ⟨idx, choices⟩ := p
    intro cur s hs j hj
    rw [pureGen, List.mem_flatMap] at hs
    obtain ⟨c, _, hs⟩ := hs
    have hidx : idx ≠ j := hj (idx, choices) (List.mem_cons_self _ _)
    rw [ih _ s hs j fun p hp => hj p (List.mem_cons_of_mem _ hp),
      List.map_set, List.getElem?_set_ne hidx]

/-- A string produced below a branch that fixed position `idx` to `c`
carries `c` at position `idx`, provided no deeper position writes there
and the buffer is long enough. -/
theorem pureGen_fixed_at (rest : List (Nat × List Char)) (cur : List (Option Char))
    (idx : Nat) (c : Char) (s : String) (hlt : idx < cur.length)
    (hrest : ∀ p ∈ rest, p.1 ≠ idx) (hs : s ∈ pureGen rest (cur.set idx (some c))) :
    s.data[idx]? = some c := by
  rw [pureGen_mem_getElem rest _ s hs idx hrest, List.map_set,
    List.getElem?_set_self (by simpa using hlt)]
  rfl

theorem pureGen_mem_choices (ps : List (Nat × List Char)) :
    ∀ (cur : List (Option Char)) (s : String), (ps.map Prod.fst).Nodup →
      (∀ p ∈ ps, p.1 < cur.length) → s ∈ pureGen ps cur →
      ∀ pr ∈ ps, ∃ c ∈ pr.2, s.data[pr.1]? = some c := by
  induction ps with
  | nil => intro cur s _ _ _ pr hpr; cases hpr
  | cons p rest ih =>
    obtain ⟨idx, choices⟩ := p
    intro cur s hnd hlt hs pr hpr
    rw [List.map_cons] at hnd
    obtain ⟨hnotmem, hndrest⟩ := List.nodup_cons.mp hnd
    have hrest : ∀ p ∈ rest, p.1 ≠ idx := by
      intro p hp hc
      apply hnotmem
      rw [← hc]
      exact List.mem_map.mpr ⟨p, hp, rfl⟩
    rw [pureGen, List.mem_flatMap] at hs
    obtain ⟨c, hc, hs⟩ := hs
    rcases List.mem_cons.mp hpr with h1 | h2
    · subst h1
      exact ⟨c, hc, pureGen_fixed_at rest cur idx c s
        (hlt (idx, choices) (List.mem_cons_self _ _)) hrest hs⟩
    · exact ih _ s hndrest
        (fun p hp => by rw [List.length_set]; exact hlt p (List.mem_cons_of_mem _ hp))
        hs pr h2

theorem pureGen_nodup (ps : List (Nat × List Char)) :
    ∀ cur : List (Option Char), (ps.map Prod.fst).Nodup →
      (∀ p ∈ ps, p.1 < cur.length) → (∀ p ∈ ps, p.2.Nodup) →
      (pureGen ps cur).Nodup := by
  induction ps with
  | nil => intro cur _ _ _; exact List.nodup_singleton _
  | cons p rest ih =>
    obtain ⟨idx, choices⟩ := p
    intro cur hnd hlt hchoices
    rw [List.map_cons] at hnd
    obtain ⟨hnotmem, hndrest⟩ := List.nodup_cons.mp hnd
    have hrest : ∀ p ∈ rest, p.1 ≠ idx := by
      intro p hp hc
      apply hnotmem
      rw [← hc]
      exact List.mem_map.mpr ⟨p, hp, rfl⟩
    have hiltcur : idx < cur.length := hlt (idx, choices) (List.mem_cons_self _ _)
    have hchnd : choices.Nodup := hchoices (idx, choices) (List.mem_cons_self _ _)
    have hrestlt : ∀ p ∈ rest, p.1 < (cur.set idx (some ' ')).length := by
      intro p hp
      rw [List.length_set]
      exact hlt p (List.mem_cons_of_mem _ hp)
    have hrestnd2 : ∀ p ∈ rest, p.2.Nodup := fun p hp =>
      hchoices p (List.mem_cons_of_mem _ hp)
    rw [pureGen]
    have main : ∀ cs2 : List Char, cs2.Nodup →
        (cs2.flatMap fun c => pureGen rest (cur.set idx (some c))).Nodup := by
      intro cs2
      induction cs2 with
      | nil => intro _; exact List.Pairwise.nil
      | cons c cs ihc =>
        intro hnd2
        obtain ⟨hcnotin, hcsnd⟩ := List.nodup_cons.mp hnd2
        rw [List.flatMap_cons]
        apply List.Nodup.append
        · exact ih _ hndrest
            (fun p hp => by
              rw [List.length_set]
              exact hlt p (List.mem_cons_of_mem _ hp))
            hrestnd2
        · exact ihc hcsnd
        · rw [List.disjoint_left]
          intro s hs1 hs2
          rw [List.mem_flatMap] at hs2
          obtain ⟨c2, hc2, hs2⟩ := hs2
          have e1 : s.data[idx]? = some c := pureGen_fixed_at rest cur idx c s hiltcur hrest hs1
          have e2 : s.data[idx]? = some c2 := pureGen_fixed_at rest cur idx c2 s hiltcur hrest hs2
          rw [e1] at e2
          obtain rfl : c = c2 := Option.some.inj e2
          exact hcnotin hc2
    exact main choices hchnd

/-- The precomputed total is the product of the choice-list sizes of the
generator, for every template and candidate map. -/
theorem calc_total_eq_prod (t : List Char) (m : Nat → Option (List Char)) :
    calculate_total_combinations t m
      = ((buildPositions t m).map fun p => p.2.length).prod := by
  have hmap : (buildPositions t m).map (fun p => p.2.length)
      = (List.range t.length).map fun idx =>
          match m idx with
          | some cs => (cs.filter fun c => ALPHABET.data.contains c).length
          | none => 1 := by
    rw [buildPositions, List.map_map]
    apply List.map_congr_left
    intro idx _
    rcases hm : m idx with _ | cs <;> simp [Function.comp, hm]
  rw [hmap, calculate_total_combinations]
  have h : ∀ (l : List Nat) (a : Nat),
      (l.foldl (fun total idx =>
        match m idx with
        | some cs => total * (cs.filter fun c => ALPHABET.data.contains c).length
        | none => total) a)
      = a * (l.map fun idx =>
          match m idx with
          | some cs => (cs.filter fun c => ALPHABET.data.contains c).length
          | none => 1).prod := by
    intro l
    induction l with
    | nil => intro a; simp
    | cons x xs ihl =>
      intro a
      rw [List.foldl_cons, ihl, List.map_cons, List.prod_cons, ← Nat.mul_assoc]
      rcases hm : m x with _ | cs <;> simp [hm]
  rw [h, Nat.one_mul]

/-! ### Scan-loop lemmas

The loop is a fold with a running index; splitting the candidate list,
the behaviour on a skipped prefix, and the state evolution over a
processed suffix are established once and reused by the resume,
interruption and filter theorems. -/

theorem scanLoop_append (l1 l2 : List String) :
    ∀ (i : Nat) (st : ScanState),
      scanLoop (l1 ++ l2) i st = scanLoop l2 (i + l1.length) (scanLoop l1 i st) := by
  induction l1 with
  | nil => intro i st; simp [scanLoop]
  | cons w ws ih =>
    intro i st
    rw [List.cons_append, scanLoop, scanLoop, ih]
    congr 1
    simp [Nat.add_assoc, Nat.add_comm 1 ws.length]

/-- Iterations whose index is below the cursor leave the state untouched
(the `continue` of line 157–158). -/
theorem scanLoop_skip (l : List String) :
    ∀ (i : Nat) (st : ScanState), i + l.length ≤ st.tested → scanLoop l i st = st := by
  induction l with
  | nil => intro i st _; rfl
  | cons w ws ih =>
    intro i st h
    rw [scanLoop]
    have hi : i < st.tested := by
      have hlen : (w :: ws).length = ws.length + 1 := by simp
      omega
    rw [scanStep, if_pos hi]
    apply ih
    have : (w :: ws).length = ws.length + 1 := by simp
    omega

theorem scanStep_tested (st : ScanState) (i : Nat) (w : String) (h : ¬ i < st.tested) :
    (scanStep st i w).tested = i + 1 := by
  by_cases hf : structuralFilter w <;>
    rcases hok : wif_to_privkey w with e | ⟨p, c⟩ <;>
    simp [scanStep, h, hf, hok]

theorem scanStep_processed (st : ScanState) (i : Nat) (w : String) (h : ¬ i < st.tested) :
    (scanStep st i w).processed = st.processed ++ [(i, w)] := by
  by_cases hf : structuralFilter w <;>
    rcases hok : wif_to_privkey w with e | ⟨p, c⟩ <;>
    simp [scanStep, h, hf, hok]

/-- The validator runs on an iteration exactly when the structural filter
passes (src/main.py lines 161–168 guard lines 186–189). -/
theorem scanStep_validated (st : ScanState) (i : Nat) (w : String) (h : ¬ i < st.tested) :
    (scanStep st i w).validated
      = st.validated ++ (if structuralFilter w then [(i, w)] else []) := by
  by_cases hf : structuralFilter w <;>
    rcases hok : wif_to_privkey w with e | ⟨p, c⟩ <;>
    simp [scanStep, h, hf, hok]

/-- When the cursor equals the running index, every remaining iteration
runs its body: the cursor advances to the end, the processed list
collects every candidate in order, and the validated list collects
exactly the candidates passing the structural filter. -/
theorem scanLoop_run (l : List String) :
    ∀ (i : Nat) (st : ScanState), st.tested = i →
      (scanLoop l i st).tested = i + l.length
      ∧ (scanLoop l i st).processed = st.processed ++ enumFrom i l
      ∧ (scanLoop l i st).validated
          = st.validated ++ (enumFrom i l).filter fun p => structuralFilter p.2 := by
  induction l with
  | nil => intro i st h; simp [scanLoop, enumFrom, h]
  | cons w ws ih =>
    intro i st h
    have hnotlt : ¬ i < st.tested := by omega
    have hstep : (scanStep st i w).tested = i + 1 := scanStep_tested st i w hnotlt
    obtain ⟨iht, ihp, ihv⟩ := ih (i + 1) (scanStep st i w) hstep
    refine ⟨?_, ?_, ?_⟩
    · rw [scanLoop, iht]
      simp [Nat.add_assoc, Nat.add_comm 1 ws.length]
    · rw [scanLoop, ihp, scanStep_processed st i w hnotlt, enumFrom, List.append_assoc]
      rfl
    · rw [scanLoop, ihv, scanStep_validated st i w hnotlt, enumFrom, List.filter_cons,
        List.append_assoc]
      by_cases hf : structuralFilter w <;> simp [hf]

/-! ### Base-conversion lemmas

The digit expansion is fuel-driven; the fuel is first shown irrelevant,
after which the usual positional-numeral identities follow by strong
induction on the value and reverse induction on the digit string. -/

theorem digitsGo_fuel (b : Nat) (hb : 2 ≤ b) :
    ∀ n fuel1 fuel2, n ≤ fuel1 → n ≤ fuel2 → digitsGo b fuel1 n = digitsGo b fuel2 n := by
  intro n
  induction n using Nat.strong_induction_on with
  | _ n ih =>
    intro fuel1 fuel2 h1 h2
    match fuel1, fuel2 with
    | 0, 0 => rfl
    | 0, f2 + 1 =>
      interval_cases n
      rw [digitsGo, digitsGo, if_pos rfl]
    | f1 + 1, 0 =>
      interval_cases n
      rw [digitsGo, digitsGo, if_pos rfl]
    | f1 + 1, f2 + 1 =>
      rw [digitsGo, digitsGo]
      by_cases hn : n = 0
      · rw [if_pos hn, if_pos hn]
      · rw [if_neg hn, if_neg hn]
        have hdiv : n / b < n := Nat.div_lt_self (Nat.pos_of_ne_zero hn) hb
        rw [ih (n / b) hdiv f1 f2 (by omega) (by omega)]

/-- The defining recurrence of the digit expansion, with the fuel hidden. -/
theorem natDigits_eq (b : Nat) (hb : 2 ≤ b) (n : Nat) :
    natDigits b n = if n = 0 then [] else natDigits b (n / b) ++ [n % b] := by
  by_cases hn : n = 0
  · rw [hn, if_pos rfl]; rfl
  · rw [if_neg hn]
    have hlt : n / b < n := Nat.div_lt_self (Nat.pos_of_ne_zero hn) hb
    rw [natDigits, natDigits]
    obtain ⟨m, rfl⟩ : ∃ m, n = m + 1 := ⟨n - 1, by omega⟩
    rw [digitsGo, if_neg hn]
    congr 1
    exact digitsGo_fuel b hb _ m _ (by omega) (Nat.le_refl _)

theorem digitsVal_append (b : Nat) (ds : List Nat) (d : Nat) :
    digitsVal b (ds ++ [d]) = digitsVal b ds * b + d := by
  rw [digitsVal, digitsVal, List.foldl_append]
  rfl

theorem digitsVal_natDigits (b : Nat) (hb : 2 ≤ b) :
    ∀ n, digitsVal b (natDigits b n) = n := by
  intro n
  induction n using Nat.strong_induction_on with
  | _ n ih =>
    rw [natDigits_eq b hb]
    by_cases hn : n = 0
    · rw [if_pos hn, hn]; rfl
    · rw [if_neg hn, digitsVal_append,
        ih (n / b) (Nat.div_lt_self (Nat.pos_of_ne_zero hn) hb)]
      have h1 := Nat.div_add_mod n b
      have h2 : n / b * b = b * (n / b) := Nat.mul_comm _ _
      omega

theorem natDigits_lt (b : Nat) (hb : 2 ≤ b) :
    ∀ n, ∀ d ∈ natDigits b n, d < b := by
  intro n
  induction n using Nat.strong_induction_on with
  | _ n ih =>
    rw [natDigits_eq b hb]
    by_cases hn : n = 0
    · rw [if_pos hn]; intro d hd; cases hd
    · rw [if_neg hn]
      intro d hd
      rcases List.mem_append.mp hd with h1 | h2
      · exact ih (n / b) (Nat.div_lt_self (Nat.pos_of_ne_zero hn) hb) d h1
      · rw [List.mem_singleton.mp h2]
        exact Nat.mod_lt n (by omega)

theorem natDigits_head (b : Nat) (hb : 2 ≤ b) :
    ∀ n, 0 < n → natDigits b n ≠ [] ∧ (natDigits b n).head? ≠ some 0 := by
  intro n
  induction n using Nat.strong_induction_on with
  | _ n ih =>
    intro hpos
    rw [natDigits_eq b hb, if_neg (Nat.pos_iff_ne_zero.mp hpos)]
    by_cases hq : n / b = 0
    · rw [hq]
      have hmod : n % b = n := by
        have := Nat.div_add_mod n b
        rw [hq] at this
        omega
      refine ⟨by simp, ?_⟩
      rw [natDigits_eq b hb, if_pos rfl, List.nil_append, List.head?_cons, hmod]
      simpa using Nat.pos_iff_ne_zero.mp hpos
    · obtain ⟨hne, hhd⟩ := ih (n / b) (Nat.div_lt_self hpos hb) (Nat.pos_of_ne_zero hq)
      constructor
      · simp
      · rwa [List.head?_append_of_ne_nil _ hne]

theorem digitsVal_cons (b : Nat) (d : Nat) (ds : List Nat) :
    digitsVal b (d :: ds) = d * b ^ ds.length + digitsVal b ds := by
  have h : ∀ (l : List Nat) (a1 a2 : Nat),
      l.foldl (fun acc x => acc * b + x) (a1 + a2)
        = a1 * b ^ l.length + l.foldl (fun acc x => acc * b + x) a2 := by
    intro l
    induction l with
    | nil => intro a1 a2; simp
    | cons x xs ihl =>
      intro a1 a2
      rw [List.foldl_cons, List.foldl_cons]
      have : (a1 + a2) * b + x = a1 * b + (a2 * b + x) := by ring
      rw [this, ihl]
      simp [List.length_cons, Nat.pow_succ]
      ring
  rw [digitsVal, digitsVal, List.foldl_cons]
  have h0 : (0 : Nat) * b + d = d + 0 := by ring
  rw [h0, h]

theorem digitsVal_pos (b : Nat) (hb : 2 ≤ b) (d : Nat) (ds : List Nat) (hd : 0 < d) :
    0 < digitsVal b (d :: ds) := by
  rw [digitsVal_cons]
  have : 0 < b ^ ds.length := Nat.pos_pow_of_pos _ (by omega)
  have : 0 < d * b ^ ds.length := Nat.mul_pos hd this
  omega

/-- Digit strings with no leading zero are recovered exactly from their
value. -/
theorem natDigits_digitsVal (b : Nat) (hb : 2 ≤ b) (ds : List Nat)
    (hlt : ∀ d ∈ ds, d < b) (hhd : ds.head? ≠ some 0) :
    natDigits b (digitsVal b ds) = ds := by
  induction ds using List.reverseRecOn with
  | nil => rfl
  | append_singleton xs d ih =>
    rw [digitsVal_append]
    rcases hxs : xs with _ | ⟨x0, xtail⟩
    · subst hxs
      have hd0 : d ≠ 0 := by
        intro hc
        exact hhd (by simp [hc])
      have hdb : d < b := hlt d (by simp)
      have hv : digitsVal b ([] : List Nat) * b + d = d := by
        rw [digitsVal]
        simp
      rw [hv, natDigits_eq b hb, if_neg hd0, Nat.mod_eq_of_lt hdb, Nat.div_eq_of_lt hdb]
      rfl
    · subst hxs
      have hx0 : 0 < x0 := by
        have hne0 : x0 ≠ 0 := by
          intro hc
          apply hhd
          simp [hc]
        omega
      have hvpos : 0 < digitsVal b (x0 :: xtail) := digitsVal_pos b hb x0 xtail hx0
      have hdb : d < b := hlt d (by simp)
      have hsum : digitsVal b (x0 :: xtail) * b + d ≠ 0 := by
        have := Nat.mul_pos hvpos (show 0 < b by omega)
        omega
      rw [natDigits_eq b hb, if_neg hsum]
      have hdivq : (digitsVal b (x0 :: xtail) * b + d) / b = digitsVal b (x0 :: xtail) := by
        rw [Nat.mul_comm, Nat.mul_add_div (by omega), Nat.div_eq_of_lt hdb, Nat.add_zero]
      have hmodr : (digitsVal b (x0 :: xtail) * b + d) % b = d := by
        rw [Nat.mul_comm, Nat.mul_add_mod, Nat.mod_eq_of_lt hdb]
      rw [hdivq, hmodr, ih (fun x hx => hlt x (List.mem_append_left _ hx))
        (by simpa using fun hc => hx0.ne (by omega))]

/-! ### Base58 lemmas

The digit lookup is inverted against the alphabet, the decoder is split
into its pure value (`b58decodeRaw`) plus the validity condition, and the
encode–decode round trip is established on byte lists. -/

theorem b58Index_getElem (l : List Char) :
    ∀ (c : Char) (d : Nat), b58Index l c = some d → l[d]? = some c := by
  induction l with
  | nil => intro c d h; cases h
  | cons a as ih =>
    intro c d h
    rw [b58Index] at h
    by_cases hac : a = c
    · rw [if_pos hac] at h
      obtain rfl : (0 : Nat) = d := Option.some.inj h
      rw [List.getElem?_cons_zero, hac]
    · rw [if_neg hac] at h
      rcases ho : b58Index as c with _ | d2
      · rw [ho] at h; cases h
      · rw [ho] at h
        obtain rfl : d2 + 1 = d := Option.some.inj h
        rw [List.getElem?_cons_succ]
        exact ih c d2 ho

theorem b58Index_isSome_iff (l : List Char) (c : Char) :
    (b58Index l c).isSome = true ↔ c ∈ l := by
  induction l with
  | nil => simp [b58Index]
  | cons a as ih =>
    rw [b58Index]
    by_cases hac : a = c
    · rw [if_pos hac]
      simp [hac]
    · rw [if_neg hac]
      have hmap : (Option.map (fun x => x + 1) (b58Index as c)).isSome
          = (b58Index as c).isSome := by
        rcases b58Index as c with _ | d <;> rfl
      rw [hmap, ih, List.mem_cons]
      constructor
      · exact Or.inr
      · rintro (h1 | h2)
        · exact absurd h1.symm hac
        · exact h2

theorem b58Index_lt (c : Char) (d : Nat) (h : b58Index ALPHABET.data c = some d) :
    d < 58 := by
  have h2 := b58Index_getElem _ c d h
  by_contra hge
  rw [List.getElem?_eq_none (by
    show ALPHABET.data.length ≤ d
    have : ALPHABET.data.length = 58 := rfl
    omega)] at h2
  cases h2

theorem b58Digit_b58Index (c : Char) (d : Nat) (h : b58Index ALPHABET.data c = some d) :
    b58Digit d = c := by
  have h2 := b58Index_getElem _ c d h
  rw [b58Digit, List.getD_eq_getElem?_getD, h2]
  rfl

theorem b58Index_eq_zero (c : Char) (h : b58Index ALPHABET.data c = some 0) :
    c = '1' := by
  have h2 := b58Index_getElem _ c 0 h
  have h1 : (ALPHABET.data)[0]? = some '1' := rfl
  rw [h1] at h2
  exact (Option.some.inj h2).symm

theorem mapM_b58_some (v : List Char) (h : ∀ c ∈ v, c ∈ ALPHABET.data) :
    v.mapM (b58Index ALPHABET.data)
      = some (v.map fun c => (b58Index ALPHABET.data c).getD 0) := by
  induction v with
  | nil => rfl
  | cons c cs ih =>
    rw [List.mapM_cons]
    have hc : c ∈ ALPHABET.data := h c (List.mem_cons_self _ _)
    obtain ⟨d, hd⟩ : ∃ d, b58Index ALPHABET.data c = some d :=
      Option.isSome_iff_exists.mp ((b58Index_isSome_iff _ _).mpr hc)
    rw [hd, ih fun x hx => h x (List.mem_cons_of_mem _ hx)]
    simp [hd]

theorem mapM_b58_none (v : List Char) (h : ¬ ∀ c ∈ v, c ∈ ALPHABET.data) :
    v.mapM (b58Index ALPHABET.data) = none := by
  induction v with
  | nil => exact absurd (by simp) h
  | cons c cs ih =>
    rw [List.mapM_cons]
    by_cases hc : c ∈ ALPHABET.data
    · obtain ⟨d, hd⟩ : ∃ d, b58Index ALPHABET.data c = some d :=
        Option.isSome_iff_exists.mp ((b58Index_isSome_iff _ _).mpr hc)
      have hcs : ¬ ∀ x ∈ cs, x ∈ ALPHABET.data := by
        intro hall
        apply h
        intro x hx
        rcases List.mem_cons.mp hx with h1 | h2
        · rw [h1]; exact hc
        · exact hall x h2
      rw [hd, ih hcs]
      rfl
    · have hnone : b58Index ALPHABET.data c = none := by
        rcases ho : b58Index ALPHABET.data c with _ | d
        · rfl
        · exact absurd ((b58Index_isSome_iff _ _).mp (by simp [ho])) hc
      rw [hnone]
      rfl

theorem dropWhile_head_not {α : Type} (p : α → Bool) (l : List α) :
    ∀ c, (l.dropWhile p).head? = some c → p c = false := by
  induction l with
  | nil => intro c h; cases h
  | cons x xs ih =>
    intro c h
    rw [List.dropWhile_cons] at h
    by_cases hp : p x
    · rw [if_pos hp] at h
      exact ih c h
    · rw [if_neg hp] at h
      obtain rfl : x = c := Option.some.inj h
      simpa using hp

theorem dropWhile_append_all {α : Type} (p : α → Bool) (l1 l2 : List α)
    (h : ∀ x ∈ l1, p x = true) :
    (l1 ++ l2).dropWhile p = l2.dropWhile p := by
  induction l1 with
  | nil => rfl
  | cons x xs ih =>
    rw [List.cons_append, List.dropWhile_cons, if_pos (h x (List.mem_cons_self _ _))]
    exact ih fun y hy => h y (List.mem_cons_of_mem _ hy)

/-- The pure value of the base58 decoder, defined for every input; it
agrees with `b58decode` exactly on inputs whose characters all belong to
the alphabet. -/
def b58decodeRaw (v : List Char) : List Nat :=
  let stripped := v.dropWhile (· = '1')
  List.replicate (v.length - stripped.length) 0
    ++ natDigits 256 (digitsVal 58 (stripped.map fun c => (b58Index ALPHABET.data c).getD 0))

theorem stripped_valid (v : List Char) (h : ∀ c ∈ v, c ∈ ALPHABET.data) :
    ∀ c ∈ v.dropWhile (· = '1'), c ∈ ALPHABET.data :=
  fun c hc => h c ((List.dropWhile_sublist _).subset hc)

theorem valid_of_stripped (v : List Char)
    (h : ∀ c ∈ v.dropWhile (· = '1'), c ∈ ALPHABET.data) :
    ∀ c ∈ v, c ∈ ALPHABET.data := by
  intro c hc
  rw [← List.takeWhile_append_dropWhile (fun c => decide (c = '1')) v] at hc
  rcases List.mem_append.mp hc with h1 | h2
  · have : c = '1' := by simpa using List.mem_takeWhile_imp h1
    rw [this]
    decide
  · exact h c h2

theorem b58decode_ok (v : List Char) (h : ∀ c ∈ v, c ∈ ALPHABET.data) :
    b58decode v = .ok (b58decodeRaw v) := by
  rw [b58decode, b58decodeRaw]
  simp only [mapM_b58_some _ (stripped_valid v h)]

theorem b58decode_err (v : List Char) (h : ¬ ∀ c ∈ v, c ∈ ALPHABET.data) :
    b58decode v = .error .invalidChar := by
  rw [b58decode]
  have hstr : ¬ ∀ c ∈ v.dropWhile (· = '1'), c ∈ ALPHABET.data :=
    fun hall => h (valid_of_stripped v hall)
  simp only [mapM_b58_none _ hstr]

/-- Encoding inverts decoding on every all-alphabet input. -/
theorem b58encode_decodeRaw (v : List Char) (h : ∀ c ∈ v, c ∈ ALPHABET.data) :
    b58encode (b58decodeRaw v) = v := by
  have hvalid := stripped_valid v h
  have htake : v.takeWhile (fun c => decide (c = '1'))
      = List.replicate (v.takeWhile (fun c => decide (c = '1'))).length '1' :=
    List.eq_replicate_of_mem fun c hc => by simpa using List.mem_takeWhile_imp hc
  have hsplit := List.takeWhile_append_dropWhile (fun c => decide (c = '1')) v
  have hlen : (v.takeWhile (fun c => decide (c = '1'))).length
      = v.length - (v.dropWhile (fun c => decide (c = '1'))).length := by
    have hl := congrArg List.length hsplit
    rw [List.length_append] at hl
    omega
  rcases eq_or_ne (v.dropWhile (fun c => decide (c = '1'))) [] with hstr | hne
  · have hdecraw : b58decodeRaw v = List.replicate v.length 0 := by
      simp [b58decodeRaw, hstr,
        show natDigits 256 (digitsVal 58 ([] : List Nat)) = [] from rfl]
    rw [hdecraw, b58encode]
    have hdw : (List.replicate v.length 0).dropWhile (fun x => decide (x = 0)) = [] := by
      rw [← List.append_nil (List.replicate v.length (0 : Nat)),
        dropWhile_append_all _ _ _
          (fun x hx => by simpa using (List.mem_replicate.mp hx).2)]
      rfl
    simp only [hdw]
    have e2 : natDigits 58 (digitsVal 256 ([] : List Nat)) = [] := rfl
    rw [e2, List.map_nil, List.append_nil, List.length_replicate, List.length_nil,
      Nat.sub_zero]
    conv_rhs => rw [← hsplit, hstr, List.append_nil, htake]
    rw [hlen, hstr, List.length_nil, Nat.sub_zero]
  · obtain ⟨c0, st, hstr⟩ :
        ∃ c0 st, v.dropWhile (fun c => decide (c = '1')) = c0 :: st := by
      rcases hcase : v.dropWhile (fun c => decide (c = '1')) with _ | ⟨a, b⟩
      · exact absurd hcase hne
      · exact ⟨a, b, rfl⟩
    have hc0 : c0 ∈ ALPHABET.data :=
      hvalid c0 (by rw [hstr]; exact List.mem_cons_self _ _)
    obtain ⟨d0, hd0⟩ : ∃ d0, b58Index ALPHABET.data c0 = some d0 :=
      Option.isSome_iff_exists.mp ((b58Index_isSome_iff _ _).mpr hc0)
    have hc0ne : c0 ≠ '1' := by
      have hh := dropWhile_head_not (fun c => decide (c = '1')) v c0 (by rw [hstr]; rfl)
      simpa using hh
    have hd0ne : d0 ≠ 0 := fun hc => hc0ne (b58Index_eq_zero c0 (hc ▸ hd0))
    have hdscons : (v.dropWhile (fun c => decide (c = '1'))).map
          (fun c => (b58Index ALPHABET.data c).getD 0)
        = d0 :: st.map (fun c => (b58Index ALPHABET.data c).getD 0) := by
      rw [hstr, List.map_cons, hd0]
      rfl
    have hnpos : 0 < digitsVal 58 ((v.dropWhile (fun c => decide (c = '1'))).map
        fun c => (b58Index ALPHABET.data c).getD 0) := by
      rw [hdscons]
      exact digitsVal_pos 58 (by omega) _ _ (Nat.pos_of_ne_zero hd0ne)
    obtain ⟨hXne, hXhd⟩ := natDigits_head 256 (by omega) _ hnpos
    have hdecraw : b58decodeRaw v
        = List.replicate (v.length - (c0 :: st).length) 0
          ++ natDigits 256 (digitsVal 58 ((v.dropWhile (fun c => decide (c = '1'))).map
              fun c => (b58Index ALPHABET.data c).getD 0)) := by
      simp only [b58decodeRaw]
      rw [hstr]
    rw [hdecraw, b58encode]
    have hdwX : (natDigits 256 (digitsVal 58 ((v.dropWhile (fun c => decide (c = '1'))).map
          fun c => (b58Index ALPHABET.data c).getD 0))).dropWhile (fun x => decide (x = 0))
        = natDigits 256 (digitsVal 58 ((v.dropWhile (fun c => decide (c = '1'))).map
            fun c => (b58Index ALPHABET.data c).getD 0)) := by
      rcases hX : natDigits 256 (digitsVal 58 ((v.dropWhile (fun c => decide (c = '1'))).map
          fun c => (b58Index ALPHABET.data c).getD 0)) with _ | ⟨x0, xt⟩
      · rfl
      · rw [List.dropWhile_cons, if_neg]
        simp only [decide_eq_true_eq]
        intro hx0
        apply hXhd
        rw [hX, hx0]
        rfl
    have hdw : (List.replicate (v.length - (c0 :: st).length) 0
          ++ natDigits 256 (digitsVal 58 ((v.dropWhile (fun c => decide (c = '1'))).map
              fun c => (b58Index ALPHABET.data c).getD 0))).dropWhile
            (fun x => decide (x = 0))
        = natDigits 256 (digitsVal 58 ((v.dropWhile (fun c => decide (c = '1'))).map
            fun c => (b58Index ALPHABET.data c).getD 0)) := by
      rw [dropWhile_append_all _ _ _
        (fun x hx => by simpa using (List.mem_replicate.mp hx).2), hdwX]
    simp only [hdw]
    rw [List.length_append, List.length_replicate, Nat.add_sub_cancel]
    rw [digitsVal_natDigits 256 (by omega)]
    have hdigitltds : ∀ d ∈ (v.dropWhile (fun c => decide (c = '1'))).map
        (fun c => (b58Index ALPHABET.data c).getD 0), d < 58 := by
      intro d hd
      rw [List.mem_map] at hd
      obtain ⟨c, hc, rfl⟩ := hd
      obtain ⟨dd, hdd⟩ : ∃ dd, b58Index ALPHABET.data c = some dd :=
        Option.isSome_iff_exists.mp ((b58Index_isSome_iff _ _).mpr (hvalid c hc))
      rw [hdd]
      exact b58Index_lt c dd hdd
    rw [natDigits_digitsVal 58 (by omega) _ hdigitltds
      (by
        rw [hdscons, List.head?_cons]
        simpa using hd0ne)]
    have hmapback : ((v.dropWhile (fun c => decide (c = '1'))).map
          (fun c => (b58Index ALPHABET.data c).getD 0)).map b58Digit
        = c0 :: st := by
      rw [List.map_map, ← hstr]
      have hcongr : (v.dropWhile (fun c => decide (c = '1'))).map
            (b58Digit ∘ fun c => (b58Index ALPHABET.data c).getD 0)
          = (v.dropWhile (fun c => decide (c = '1'))).map id := by
        apply List.map_congr_left
        intro c hc
        obtain ⟨dd, hdd⟩ : ∃ dd, b58Index ALPHABET.data c = some dd :=
          Option.isSome_iff_exists.mp ((b58Index_isSome_iff _ _).mpr (hvalid c hc))
        simp only [Function.comp_apply, hdd, Option.getD_some, id_eq]
        exact b58Digit_b58Index c dd hdd
      rw [hcongr, List.map_id]
    rw [hmapback]
    conv_rhs => rw [← hsplit, htake]
    rw [hlen, hstr]

/-! ### Decode pipeline projections

Pure projections of the decode pipeline, used to state the acceptance
conditions of `wif_to_privkey` without running it. -/

/-- The decoded bytes with the 4-byte checksum removed (the `result` of
`b58decode_check`). -/
def rawOf (s : String) : List Nat :=
  (b58decodeRaw s.data).take ((b58decodeRaw s.data).length - 4)

/-- The 4 trailing checksum bytes of the decoded candidate. -/
def checkOf (s : String) : List Nat :=
  (b58decodeRaw s.data).drop ((b58decodeRaw s.data).length - 4)

/-- The decoded payload after the version byte (`raw[1:]`). -/
def payloadOf (s : String) : List Nat := (rawOf s).drop 1

theorem b58decode_check_valid (v : List Char) (hv : ∀ c ∈ v, c ∈ ALPHABET.data) :
    b58decode_check v
      = if (b58decodeRaw v).drop ((b58decodeRaw v).length - 4)
            = sha4 ((b58decodeRaw v).take ((b58decodeRaw v).length - 4))
        then .ok ((b58decodeRaw v).take ((b58decodeRaw v).length - 4))
        else .error .checksumMismatch := by
  simp only [b58decode_check, b58decode_ok _ hv]

theorem b58decode_check_invalid (v : List Char) (hv : ¬ ∀ c ∈ v, c ∈ ALPHABET.data) :
    b58decode_check v = .error .invalidChar := by
  simp only [b58decode_check, b58decode_err _ hv]

/-- Re-encoding the accepted bytes of `b58decode_check` reproduces the
input character string. -/
theorem b58encode_check_decode (v : List Char) (raw : List Nat)
    (h : b58decode_check v = .ok raw) : b58encode_check raw = v := by
  by_cases hv : ∀ c ∈ v, c ∈ ALPHABET.data
  · rw [b58decode_check_valid v hv] at h
    by_cases hchk : (b58decodeRaw v).drop ((b58decodeRaw v).length - 4)
        = sha4 ((b58decodeRaw v).take ((b58decodeRaw v).length - 4))
    · rw [if_pos hchk] at h
      obtain rfl : (b58decodeRaw v).take ((b58decodeRaw v).length - 4) = raw :=
        Except.ok.inj h
      rw [b58encode_check, ← hchk, List.take_append_drop]
      exact b58encode_decodeRaw v hv
    · rw [if_neg hchk] at h
      cases h
  · rw [b58decode_check_invalid v hv] at h
    cases h

/-- C7: for every candidate accepted by `wif_to_privkey` with payload
`p` and format flag `f`, re-encoding with the same scheme — Base58Check
over version byte 0x80, then `p`, then the 0x01 marker exactly when `f`
is set — reproduces the original candidate string exactly. -/
theorem wif_roundtrip (s : String) (p : List Nat) (f : Bool)
    (h : wif_to_privkey s = .ok (p, f)) :
    String.mk (encodeWif p f) = s := by
  rcases hd : b58decode_check s.data with e | raw
  · simp only [wif_to_privkey, hd] at h
    cases h
  · simp only [wif_to_privkey, hd] at h
    by_cases hver : raw.head? = some 0x80
    · rw [if_pos hver] at h
      rcases raw with _ | ⟨r0, rt⟩
      · simp at hver
      · have hr0 : r0 = 128 := by simpa using hver
        subst hr0
        simp only [List.drop_succ_cons, List.drop_zero] at h
        by_cases h32 : rt.length = 32
        · rw [if_pos h32] at h
          obtain ⟨rfl, rfl⟩ : rt = p ∧ false = f := by
            have := Except.ok.inj h
            exact ⟨congrArg Prod.fst this, congrArg Prod.snd this⟩
          rw [encodeWif]
          simp only [Bool.false_eq_true, if_false, List.append_nil]
          rw [b58encode_check_decode s.data (128 :: rt) hd]
        · rw [if_neg h32] at h
          by_cases h33 : rt.length = 33 ∧ rt.getLast? = some 1
          · rw [if_pos h33] at h
            obtain ⟨rfl, rfl⟩ : rt.dropLast = p ∧ true = f := by
              have := Except.ok.inj h
              exact ⟨congrArg Prod.fst this, congrArg Prod.snd this⟩
            rw [encodeWif]
            simp only [if_true]
            have hne : rt ≠ [] := by
              intro hc
              rw [hc] at h33
              cases h33.2
            have hlast : rt.getLast hne = 1 := by
              have := List.getLast?_eq_getLast rt hne
              rw [h33.2] at this
              exact (Option.some.inj this).symm
            have hrt : rt.dropLast ++ [1] = rt := by
              conv_rhs => rw [← List.dropLast_append_getLast hne, hlast]
            rw [hrt, b58encode_check_decode s.data (128 :: rt) hd]
          · rw [if_neg h33] at h
            cases h
    · rw [if_neg hver] at h
      cases h

/-- C5: `wif_to_privkey` rejects a candidate exactly when the string
contains a character outside the Base58 alphabet, or the 4-byte trailing
checksum does not match, or the leading version byte is not 0x80, or the
decoded payload length is neither 32 bytes nor 33 bytes with trailing
byte 0x01; otherwise it returns the 32-byte payload and a format flag
that is true exactly when the payload was 33 bytes with the 0x01
marker. -/
theorem wif_to_privkey_spec (s : String) :
    ((wif_to_privkey s).isOk = true ↔
      ((∀ c ∈ s.data, c ∈ ALPHABET.data)
        ∧ checkOf s = sha4 (rawOf s)
        ∧ (rawOf s).head? = some 128
        ∧ ((payloadOf s).length = 32
            ∨ ((payloadOf s).length = 33 ∧ (payloadOf s).getLast? = some 1))))
    ∧ ∀ p f, wif_to_privkey s = .ok (p, f) →
        p.length = 32
        ∧ (f = true ↔ ((payloadOf s).length = 33 ∧ (payloadOf s).getLast? = some 1))
        ∧ p = (if f then (payloadOf s).dropLast else payloadOf s) := by
  by_cases hv : ∀ c ∈ s.data, c ∈ ALPHABET.data
  · by_cases hchk : checkOf s = sha4 (rawOf s)
    · have hchkdrop : (b58decodeRaw s.data).drop ((b58decodeRaw s.data).length - 4)
          = sha4 ((b58decodeRaw s.data).take ((b58decodeRaw s.data).length - 4)) := hchk
      have hdec : b58decode_check s.data = .ok (rawOf s) := by
        rw [b58decode_check_valid s.data hv, if_pos hchkdrop]
        rfl
      by_cases hver : (rawOf s).head? = some 128
      · by_cases h32 : (payloadOf s).length = 32
        · have hwif : wif_to_privkey s = .ok (payloadOf s, false) := by
            simp only [wif_to_privkey, hdec, if_pos hver]
            rw [if_pos (show ((rawOf s).drop 1).length = 32 from h32)]
            rfl
          have hnot33 : ¬ ((payloadOf s).length = 33 ∧ (payloadOf s).getLast? = some 1) :=
            fun hc => by omega
          constructor
          · rw [hwif]
            exact iff_of_true rfl ⟨hv, hchk, hver, Or.inl h32⟩
          · intro p f hpf
            rw [hwif] at hpf
            have hinj := Except.ok.inj hpf
            obtain ⟨rfl, rfl⟩ : payloadOf s = p ∧ false = f :=
              ⟨congrArg Prod.fst hinj, congrArg Prod.snd hinj⟩
            exact ⟨h32, iff_of_false (by simp) hnot33, by simp⟩
        · by_cases h33 : (payloadOf s).length = 33 ∧ (payloadOf s).getLast? = some 1
          · have hwif : wif_to_privkey s = .ok ((payloadOf s).dropLast, true) := by
              simp only [wif_to_privkey, hdec, if_pos hver]
              rw [if_neg (show ¬ ((rawOf s).drop 1).length = 32 from h32),
                if_pos (show ((rawOf s).drop 1).length = 33
                    ∧ ((rawOf s).drop 1).getLast? = some 1 from h33)]
              rfl
            constructor
            · rw [hwif]
              exact iff_of_true rfl ⟨hv, hchk, hver, Or.inr h33⟩
            · intro p f hpf
              rw [hwif] at hpf
              have hinj := Except.ok.inj hpf
              obtain ⟨rfl, rfl⟩ : (payloadOf s).dropLast = p ∧ true = f :=
                ⟨congrArg Prod.fst hinj, congrArg Prod.snd hinj⟩
              refine ⟨?_, iff_of_true rfl h33, by simp⟩
              rw [List.length_dropLast, h33.1]
          · have hwif : wif_to_privkey s = .error .badLength := by
              simp only [wif_to_privkey, hdec, if_pos hver]
              rw [if_neg (show ¬ ((rawOf s).drop 1).length = 32 from h32),
                if_neg (show ¬ (((rawOf s).drop 1).length = 33
                    ∧ ((rawOf s).drop 1).getLast? = some 1) from h33)]
            constructor
            · rw [hwif]
              refine iff_of_false (by simp [Except.isOk, Except.toBool]) fun hc => ?_
              rcases hc.2.2.2 with hl | hl
              · exact h32 hl
              · exact h33 hl
            · intro p f hpf
              rw [hwif] at hpf
              cases hpf
      · have hwif : wif_to_privkey s = .error .notMainnet := by
          simp only [wif_to_privkey, hdec, if_neg hver]
        constructor
        · rw [hwif]
          exact iff_of_false (by simp [Except.isOk, Except.toBool]) fun hc => hver hc.2.2.1
        · intro p f hpf
          rw [hwif] at hpf
          cases hpf
    · have hwif : wif_to_privkey s = .error (.decodeFailure .checksumMismatch) := by
        simp only [wif_to_privkey, b58decode_check_valid s.data hv]
        rw [if_neg ?_]
        exact hchk
      constructor
      · rw [hwif]
        exact iff_of_false (by simp [Except.isOk, Except.toBool]) fun hc => hchk hc.2.1
      · intro p f hpf
        rw [hwif] at hpf
        cases hpf
  · have hwif : wif_to_privkey s = .error (.decodeFailure .invalidChar) := by
      simp only [wif_to_privkey, b58decode_check_invalid s.data hv]
    constructor
    · rw [hwif]
      exact iff_of_false (by simp [Except.isOk, Except.toBool]) fun hc => hv hc.1
    · intro p f hpf
      rw [hwif] at hpf
      cases hpf

/-! ### Enumerator theorems -/

/-- The generated candidate count always equals the precomputed total,
for every template and candidate map. -/
theorem generate_length_eq_total (t : List Char) (m : Nat → Option (List Char)) :
    (generate_candidates_safe t m).length = calculate_total_combinations t m := by
  rw [generate_eq_pureGen, pureGen_length, calc_total_eq_prod]

/-- Decidable form of the hypotheses of the bijection claim: every
constrained position has a non-empty, duplicate-free candidate set of
alphabet symbols. -/
def constraintsOK (t : List Char) (m : Nat → Option (List Char)) : Bool :=
  (List.range t.length).all fun idx =>
    match m idx with
    | some cs => !cs.isEmpty && decide cs.Nodup && cs.all fun c => ALPHABET.data.contains c
    | none => true

theorem buildPositions_mem (t : List Char) (m : Nat → Option (List Char))
    (p : Nat × List Char) (hp : p ∈ buildPositions t m) :
    p.1 < t.length
    ∧ p = (match m p.1 with
        | some cs => (p.1, cs.filter fun c => ALPHABET.data.contains c)
        | none => (p.1, [t.getD p.1 ' '])) := by
  rw [buildPositions, List.mem_map] at hp
  obtain ⟨idx, hidx, hpe⟩ := hp
  have hfst : p.1 = idx := by
    rw [← hpe]
    rcases m idx with _ | cs <;> rfl
  constructor
  · rw [hfst]
    exact List.mem_range.mp hidx
  · rw [hfst, ← hpe]

/-- C1: for every template and per-position candidate map whose
constrained sets are non-empty sequences of distinct alphabet symbols,
the enumerator yields exactly `T` strings, where `T` is the precomputed
total and equals the product of the candidate-set sizes over constrained
positions; every yielded string has the template length and no string is
yielded twice, so the yield sequence is a bijection with `[0, T)`. -/
theorem generate_bijection (t : List Char) (m : Nat → Option (List Char))
    (h : constraintsOK t m = true) :
    (generate_candidates_safe t m).length = calculate_total_combinations t m
    ∧ calculate_total_combinations t m
        = ((List.range t.length).map fun idx =>
            match m idx with
            | some cs => cs.length
            | none => 1).prod
    ∧ (∀ s ∈ generate_candidates_safe t m, s.length = t.length)
    ∧ (generate_candidates_safe t m).Nodup := by
  rw [constraintsOK, List.all_eq_true] at h
  have hOK : ∀ idx, idx < t.length → ∀ cs, m idx = some cs →
      cs ≠ [] ∧ cs.Nodup ∧ ∀ c ∈ cs, c ∈ ALPHABET.data := by
    intro idx hidx cs hcs
    have := h idx (List.mem_range.mpr hidx)
    rw [hcs] at this
    simp only [Bool.and_eq_true, decide_eq_true_eq, List.all_eq_true] at this
    refine ⟨?_, this.1.2, fun c hc => by simpa using this.2 c hc⟩
    intro hc
    rw [hc] at this
    simp at this
  have hfilter : ∀ idx, idx < t.length → ∀ cs, m idx = some cs →
      cs.filter (fun c => ALPHABET.data.contains c) = cs := by
    intro idx hidx cs hcs
    apply List.filter_eq_self.mpr
    intro c hc
    simpa using (hOK idx hidx cs hcs).2.2 c hc
  have hndfst : ((buildPositions t m).map Prod.fst).Nodup := by
    rw [buildPositions_map_fst]
    exact List.nodup_range _
  refine ⟨generate_length_eq_total t m, ?_, ?_, ?_⟩
  · rw [calc_total_eq_prod]
    have hmap : (buildPositions t m).map (fun p => p.2.length)
        = (List.range t.length).map fun idx =>
            match m idx with
            | some cs => cs.length
            | none => 1 := by
      rw [buildPositions, List.map_map]
      apply List.map_congr_left
      intro idx hidx
      rcases hm : m idx with _ | cs
      · simp [Function.comp, hm]
      · simp only [Function.comp, hm]
        rw [hfilter idx (List.mem_range.mp hidx) cs hm]
    rw [hmap]
  · intro s hs
    rw [generate_eq_pureGen] at hs
    rw [pureGen_mem_length _ _ s hs, List.length_replicate]
  · rw [generate_eq_pureGen]
    apply pureGen_nodup _ _ hndfst
    · intro p hp
      rw [List.length_replicate]
      exact (buildPositions_mem t m p hp).1
    · intro p hp
      obtain ⟨hlt, hpe⟩ := buildPositions_mem t m p hp
      rcases hm : m p.1 with _ | cs
      · rw [hm] at hpe
        rw [hpe]
        exact List.nodup_singleton _
      · rw [hm] at hpe
        have : p.2 = cs.filter fun c => ALPHABET.data.contains c := congrArg Prod.snd hpe
        rw [this]
        exact List.Nodup.filter _ (hOK p.1 hlt cs hm).2.1

/-- C10: for every template and candidate map, configured symbols
outside the alphabet are silently excluded: the character of a yielded
string at a constrained position always comes from the filtered choice
list (hence lies in the alphabet), and the precomputed total counts the
same filtered lists, so it always equals the number of candidates
actually generated. -/
theorem generate_filter_invariant (t : List Char) (m : Nat → Option (List Char)) :
    (generate_candidates_safe t m).length = calculate_total_combinations t m
    ∧ ∀ s ∈ generate_candidates_safe t m, ∀ idx cs, idx < t.length → m idx = some cs →
        s.data[idx]? ∈ ((cs.filter fun c => ALPHABET.data.contains c).map some) := by
  refine ⟨generate_length_eq_total t m, ?_⟩
  intro s hs idx cs hidx hcs
  rw [generate_eq_pureGen] at hs
  have hndfst : ((buildPositions t m).map Prod.fst).Nodup := by
    rw [buildPositions_map_fst]
    exact List.nodup_range _
  have hlt : ∀ p ∈ buildPositions t m, p.1 < (List.replicate t.length
      (none : Option Char)).length := by
    intro p hp
    rw [List.length_replicate]
    exact (buildPositions_mem t m p hp).1
  have hprmem : (idx, cs.filter fun c => ALPHABET.data.contains c) ∈ buildPositions t m := by
    rw [buildPositions, List.mem_map]
    refine ⟨idx, List.mem_range.mpr hidx, ?_⟩
    rw [hcs]
  obtain ⟨c, hc, hcat⟩ := pureGen_mem_choices _ _ s hndfst hlt hs _ hprmem
  rw [List.mem_map]
  exact ⟨c, hc, hcat.symm⟩

/-- The length-5 scenario template: position 0 fixed to `'A'`, positions
3 and 4 fixed to `"XY"`; the placeholder characters at positions 1 and 2
are overridden by the candidate map. -/
def templateC8 : List Char := "A??XY".data

/-- The scenario candidate map: positions 1 and 2 draw from the
two-symbol set `{'1', '2'}`. -/
def mapC8 : Nat → Option (List Char) := fun idx =>
  if idx = 1 ∨ idx = 2 then some ['1', '2'] else none

/-- C8: the scenario template yields exactly the four candidates
`A11XY, A12XY, A21XY, A22XY` in that order — later positions vary faster
than earlier ones — and the computed total is 4. -/
theorem generate_scenario :
    generate_candidates_safe templateC8 mapC8 = ["A11XY", "A12XY", "A21XY", "A22XY"]
    ∧ calculate_total_combinations templateC8 mapC8 = 4 := by
  exact ⟨rfl, rfl⟩

/-! ### Resume, interruption and filter theorems -/

theorem enumFrom_length (l : List String) : ∀ i, (enumFrom i l).length = l.length := by
  induction l with
  | nil => intro i; rfl
  | cons w ws ih =>
    intro i
    rw [enumFrom, List.length_cons, ih, List.length_cons]

theorem enumFrom_mem_fst (l : List String) :
    ∀ i p, p ∈ enumFrom i l → i ≤ p.1 ∧ p.1 < i + l.length := by
  induction l with
  | nil => intro i p hp; cases hp
  | cons w ws ih =>
    intro i p hp
    rw [enumFrom] at hp
    rcases List.mem_cons.mp hp with h1 | h2
    · rw [h1]
      simp
    · have := ih (i + 1) p h2
      have hlen : (w :: ws).length = ws.length + 1 := by simp
      omega

/-- A run whose initial cursor is `k` skips the first `k` candidates and
then behaves as a fresh run over the suffix. -/
theorem scanLoop_from_cursor (cands : List String) (k : Nat) (f0 : List FoundEntry)
    (hk : k ≤ cands.length) :
    scanLoop cands 0 ⟨k, f0, [], []⟩ = scanLoop (cands.drop k) k ⟨k, f0, [], []⟩ := by
  have hlen : (cands.take k).length = k := by
    rw [List.length_take]
    omega
  conv_lhs => rw [← List.take_append_drop k cands]
  rw [scanLoop_append, scanLoop_skip (cands.take k) 0 _ (by simp [hlen]), hlen,
    Nat.zero_add]

/-- C2: with initial cursor `tested = k`, the loop processes exactly the
candidates at enumeration indices `k, …, T-1`, in enumeration order; and
a run over the first `k` candidates followed by a resumed full pass
yields the same final state — found list, cursor and processed
bookkeeping — as one uninterrupted full run. -/
theorem scan_resume_equiv (cands : List String) (k : Nat) (f0 : List FoundEntry)
    (hk : k ≤ cands.length) :
    (scanLoop cands 0 ⟨k, f0, [], []⟩).processed = enumFrom k (cands.drop k)
    ∧ scanLoop cands 0 (scanLoop (cands.take k) 0 initState)
        = scanLoop cands 0 initState := by
  have hlen : (cands.take k).length = k := by
    rw [List.length_take]
    omega
  constructor
  · rw [scanLoop_from_cursor cands k f0 hk]
    have h := scanLoop_run (cands.drop k) k ⟨k, f0, [], []⟩ rfl
    rw [h.2.1]
    rfl
  · set pre := scanLoop (cands.take k) 0 initState with hpredef
    have hpre := scanLoop_run (cands.take k) 0 initState rfl
    have hpretested : pre.tested = k := by
      rw [hpredef, hpre.1, hlen, Nat.zero_add]
    conv_lhs => rw [← List.take_append_drop k cands]
    rw [scanLoop_append, scanLoop_skip (cands.take k) 0 _ (by simp [hlen, hpretested])]
    conv_rhs => rw [← List.take_append_drop k cands]
    rw [scanLoop_append, ← hpredef]

/-- C3 (amended): the cursor the SIGINT handler persists counts the
iterations whose body has begun, not the iterations fully processed:
after `j` complete iterations it equals `j` at an iteration boundary and
`j + 1` when the signal lands mid-body, while exactly `j` candidates
were fully processed; the resumed run processes exactly the candidates
from the persisted cursor on, so no candidate is ever processed twice —
but the in-flight candidate is skipped when the signal landed mid-body.
-/
theorem signal_saved_cursor (cands : List String) (j : Nat) (pt : SigPoint)
    (f0 : List FoundEntry) (hj : j ≤ cands.length) :
    ((interruptedState cands j).processed).length = j
    ∧ savedTestedAt cands j pt
        = j + (if pt = SigPoint.midBody ∧ j < cands.length then 1 else 0)
    ∧ (scanLoop cands 0 ⟨savedTestedAt cands j pt, f0, [], []⟩).processed
        = enumFrom (savedTestedAt cands j pt) (cands.drop (savedTestedAt cands j pt))
    ∧ (∀ x ∈ (interruptedState cands j).processed,
        ∀ y ∈ (scanLoop cands 0 ⟨savedTestedAt cands j pt, f0, [], []⟩).processed,
          x.1 ≠ y.1) := by
  have hlen : (cands.take j).length = j := by
    rw [List.length_take]
    omega
  have hint := scanLoop_run (cands.take j) 0 initState rfl
  have hproc : (interruptedState cands j).processed = enumFrom 0 (cands.take j) := by
    rw [interruptedState, hint.2.1]
    rfl
  have hproclen : ((interruptedState cands j).processed).length = j := by
    rw [hproc, enumFrom_length, hlen]
  have hsaved : savedTestedAt cands j pt
      = j + (if pt = SigPoint.midBody ∧ j < cands.length then 1 else 0) := by
    rcases pt with _ | _
    · rw [savedTestedAt, interruptedState, hint.1, hlen]
      simp
    · rw [savedTestedAt]
      by_cases hlt : j < cands.length
      · rw [if_pos hlt, if_pos ⟨rfl, hlt⟩]
      · rw [if_neg hlt, interruptedState, hint.1, hlen, Nat.zero_add,
          if_neg fun hc => hlt hc.2]
        omega
  have hsavedle : savedTestedAt cands j pt ≤ cands.length := by
    rw [hsaved]
    by_cases hc : pt = SigPoint.midBody ∧ j < cands.length
    · rw [if_pos hc]
      omega
    · rw [if_neg hc]
      omega
  have hresume : (scanLoop cands 0 ⟨savedTestedAt cands j pt, f0, [], []⟩).processed
      = enumFrom (savedTestedAt cands j pt) (cands.drop (savedTestedAt cands j pt)) := by
    rw [scanLoop_from_cursor cands _ f0 hsavedle]
    have h := scanLoop_run (cands.drop (savedTestedAt cands j pt))
      (savedTestedAt cands j pt) ⟨savedTestedAt cands j pt, f0, [], []⟩ rfl
    rw [h.2.1]
    rfl
  refine ⟨hproclen, hsaved, hresume, ?_⟩
  intro x hx y hy
  rw [hproc] at hx
  rw [hresume] at hy
  have hxb := enumFrom_mem_fst _ 0 x hx
  have hyb := enumFrom_mem_fst _ _ y hy
  rw [hlen] at hxb
  have : j ≤ savedTestedAt cands j pt := by
    rw [hsaved]
    omega
  omega

/-- C3 (counterexample): with one candidate and a signal landing
mid-body during the very first iteration, the handler persists
`tested = 1` although no candidate has been fully processed. -/
theorem signal_counterexample :
    ¬ savedTestedAt ["ab"] 0 SigPoint.midBody
        = ((interruptedState ["ab"] 0).processed).length := by
  decide

/-- C6: across a whole run from any resume cursor, `wif_to_privkey` is
invoked on exactly the processed candidates that pass the structural
filter — the candidates whose slice `wif[1:12]` contains at least one
digit, one lowercase and one uppercase character; all others are skipped
with no validation. -/
theorem filter_gates_validator (cands : List String) (k : Nat) (f0 : List FoundEntry)
    (hk : k ≤ cands.length) :
    (scanLoop cands 0 ⟨k, f0, [], []⟩).validated
      = ((scanLoop cands 0 ⟨k, f0, [], []⟩).processed).filter
          (fun p => structuralFilter p.2)
    ∧ ∀ w : String, structuralFilter w = true ↔
        (((w.data.drop 1).take 11).any Char.isDigit = true
          ∧ ((w.data.drop 1).take 11).any Char.isLower = true
          ∧ ((w.data.drop 1).take 11).any Char.isUpper = true) := by
  constructor
  · rw [scanLoop_from_cursor cands k f0 hk]
    have h := scanLoop_run (cands.drop k) k ⟨k, f0, [], []⟩ rfl
    rw [h.2.1, h.2.2]
    rfl
  · intro w
    rw [structuralFilter]
    simp [Bool.and_eq_true]
    exact and_assoc

/-! ### Driver theorems: resume-total mismatch and empty candidate sets -/

/-- C4 (amended): when a prior record exists and the operator resumes,
the run takes its cursor and found list from the record and proceeds
against the freshly recomputed total; the persisted `total_candidates`
is never consulted — two records differing only in it produce identical
runs — and no configuration error is ever produced. -/
theorem resume_ignores_total (t : List Char) (m : Nat → Option (List Char))
    (tc : Nat) (fw : List FoundEntry) (tot1 tot2 : Nat) (choice : Bool) :
    mainModel t m (some ⟨tc, tot1, fw⟩) choice = mainModel t m (some ⟨tc, tot2, fw⟩) choice
    ∧ mainModel t m (some ⟨tc, tot1, fw⟩) true
        = .ok ⟨calculate_total_combinations t m,
            scanLoop (generate_candidates_safe t m) 0 ⟨tc, fw, [], []⟩⟩ := by
  exact ⟨rfl, rfl⟩

/-- C4 (counterexample): resuming the scenario template with a record
whose persisted total (999) differs from the recomputed total (4) does
not raise any `ConfigurationError`: the run proceeds normally to a
completed scan. -/
theorem resume_mismatch_counterexample :
    (999 : Nat) ≠ calculate_total_combinations templateC8 mapC8
    ∧ mainModel templateC8 mapC8 (some ⟨0, 999, []⟩) true
        = .ok ⟨4, ⟨4, [],
            [(0, "A11XY"), (1, "A12XY"), (2, "A21XY"), (3, "A22XY")], []⟩⟩ := by
  exact ⟨by decide, by rfl⟩

/-- C9 (amended): when some constrained position retains no alphabet
symbol, the precomputed total is 0, the enumerator yields nothing, and
the run completes a zero-candidate scan normally — no
`ConfigurationError` is raised before (or instead of) scanning. -/
theorem empty_set_behavior (t : List Char) (m : Nat → Option (List Char))
    (idx : Nat) (cs : List Char) (hidx : idx < t.length) (hm : m idx = some cs)
    (hempty : cs.filter (fun c => ALPHABET.data.contains c) = []) :
    calculate_total_combinations t m = 0
    ∧ generate_candidates_safe t m = []
    ∧ mainModel t m none false = .ok ⟨0, ⟨0, [], [], []⟩⟩ := by
  have htotal : calculate_total_combinations t m = 0 := by
    rw [calc_total_eq_prod]
    apply List.prod_eq_zero
    rw [List.mem_map]
    refine ⟨(idx, cs.filter fun c => ALPHABET.data.contains c), ?_, ?_⟩
    · rw [buildPositions, List.mem_map]
      refine ⟨idx, List.mem_range.mpr hidx, ?_⟩
      rw [hm]
    · show (cs.filter fun c => ALPHABET.data.contains c).length = 0
      rw [hempty]
      rfl
  have hgen : generate_candidates_safe t m = [] := by
    have hl := generate_length_eq_total t m
    rw [htotal] at hl
    exact List.length_eq_zero.mp hl
  refine ⟨htotal, hgen, ?_⟩
  rw [mainModel, hgen, htotal]
  rfl

/-- The two-position template of the empty-set scenario. -/
def templateC9 : List Char := "AB".data

/-- A candidate map whose only configured symbol, `'0'`, lies outside
the Base58 alphabet, so the filtered candidate set is empty. -/
def mapC9 : Nat → Option (List Char) := fun idx =>
  if idx = 1 then some ['0'] else none

/-- C9 (counterexample): with the `'0'`-only candidate set the filtered
choice list is empty, yet the run produces no error: the total is 0, the
enumerator yields nothing, and the scan completes normally. -/
theorem empty_set_counterexample :
    (mapC9 1 = some ['0'] ∧ (['0'].filter fun c => ALPHABET.data.contains c) = [])
    ∧ calculate_total_combinations templateC9 mapC9 = 0
    ∧ generate_candidates_safe templateC9 mapC9 = []
    ∧ mainModel templateC9 mapC9 none false = .ok ⟨0, ⟨0, [], [], []⟩⟩ := by
  exact ⟨⟨rfl, rfl⟩, rfl, rfl, rfl⟩

/-! ### Concrete witnesses

A genuine mainnet WIF (compressed form) for the 32-byte secret
`01 02 … 20`, with a valid double-SHA-256 checksum, and concrete
instantiations of every hypothesis-bearing theorem. -/

/-- A valid compressed-format WIF: Base58Check of
`0x80 ‖ (1, 2, …, 32) ‖ 0x01`. -/
def wifSample : String := "KwFfpDsaF7yxCELuyrH9gP5XL7TAt5b9HPWC1xCQbmrxvhJgMQHb"

/-- The 32-byte secret payload of `wifSample`. -/
def privSample : List Nat :=
  [1, 2, 3, 4, 5, 6, 7, 8, 9, 10, 11, 12, 13, 14, 15, 16,
   17, 18, 19, 20, 21, 22, 23, 24, 25, 26, 27, 28, 29, 30, 31, 32]

theorem generate_bijection_witness :
    (generate_candidates_safe templateC8 mapC8).length
        = calculate_total_combinations templateC8 mapC8
    ∧ (generate_candidates_safe templateC8 mapC8).Nodup
    ∧ ("A11XY" : String).length = templateC8.length := by
  have h := generate_bijection templateC8 mapC8 (by decide)
  exact ⟨h.1, h.2.2.2, h.2.2.1 "A11XY" (by decide)⟩

theorem generate_filter_invariant_witness :
    (generate_candidates_safe templateC8 mapC8).length
        = calculate_total_combinations templateC8 mapC8
    ∧ ("A11XY" : String).data[1]?
        ∈ ((['1', '2'].filter fun c => ALPHABET.data.contains c).map some) := by
  have h := generate_filter_invariant templateC8 mapC8
  exact ⟨h.1, h.2 "A11XY" (by decide) 1 ['1', '2'] (by decide) (by decide)⟩

theorem scan_resume_equiv_witness :
    (scanLoop ["aa", "bb", "cc"] 0 ⟨1, [], [], []⟩).processed
        = enumFrom 1 (["aa", "bb", "cc"].drop 1)
    ∧ scanLoop ["aa", "bb", "cc"] 0 (scanLoop (["aa", "bb", "cc"].take 1) 0 initState)
        = scanLoop ["aa", "bb", "cc"] 0 initState :=
  scan_resume_equiv ["aa", "bb", "cc"] 1 [] (by decide)

theorem signal_saved_cursor_witness :
    ((interruptedState ["aa", "bb"] 1).processed).length = 1
    ∧ savedTestedAt ["aa", "bb"] 1 SigPoint.midBody = 2
    ∧ (scanLoop ["aa", "bb"] 0
          ⟨savedTestedAt ["aa", "bb"] 1 SigPoint.midBody, [], [], []⟩).processed
        = enumFrom (savedTestedAt ["aa", "bb"] 1 SigPoint.midBody)
            (["aa", "bb"].drop (savedTestedAt ["aa", "bb"] 1 SigPoint.midBody)) := by
  have h := signal_saved_cursor ["aa", "bb"] 1 SigPoint.midBody [] (by decide)
  refine ⟨h.1, ?_, h.2.2.1⟩
  rw [h.2.1]
  decide

theorem filter_gates_validator_witness :
    (scanLoop ["aa", "A11XY"] 0 ⟨0, [], [], []⟩).validated
      = ((scanLoop ["aa", "A11XY"] 0 ⟨0, [], [], []⟩).processed).filter
          (fun p => structuralFilter p.2) :=
  (filter_gates_validator ["aa", "A11XY"] 0 [] (by decide)).1

theorem empty_set_behavior_witness :
    calculate_total_combinations templateC9 mapC9 = 0
    ∧ generate_candidates_safe templateC9 mapC9 = []
    ∧ mainModel templateC9 mapC9 none false = .ok ⟨0, ⟨0, [], [], []⟩⟩ :=
  empty_set_behavior templateC9 mapC9 1 ['0'] (by decide) (by decide) (by decide)

set_option maxRecDepth 10000 in
theorem wif_to_privkey_spec_witness :
    wif_to_privkey wifSample = .ok (privSample, true)
    ∧ privSample.length = 32
    ∧ (true = true ↔ ((payloadOf wifSample).length = 33
        ∧ (payloadOf wifSample).getLast? = some 1)) := by
  have hok : wif_to_privkey wifSample = .ok (privSample, true) := by rfl
  have h := (wif_to_privkey_spec wifSample).2 privSample true hok
  exact ⟨hok, h.1, h.2.1⟩

set_option maxRecDepth 10000 in
theorem wif_roundtrip_witness :
    wif_to_privkey wifSample = .ok (privSample, true)
    ∧ String.mk (encodeWif privSample true) = wifSample := by
  have hok : wif_to_privkey wifSample = .ok (privSample, true) := by rfl
  exact ⟨hok, wif_roundtrip wifSample privSample true hok⟩

end WifRecovery

